import Mathlib

/-!
Verification of the composite-string validation combinator in
`src/packages/zod/src/v4/core/refine-template-literal.ts`.

Modelling conventions:
* JavaScript strings are modelled as `List Char`.
* A JS value that may be `undefined` is modelled as an `Option`; `none` is `undefined`.
* A segment validator (`core.$ZodTemplateLiteralPart & ZodType`) is an opaque
  caller capability: a structural shape used by the template-literal matcher and a
  `safeParse` function returning an `Outcome` (tagged Success/Failure).
* Exceptions thrown by the caller-supplied predicate are modelled with `Except`.
* The zod framework itself (`z.templateLiteral`, `.refine`, the safeParse surface)
  is code of this repository that is not under `src/`; those pieces are modelled
  from the spec and marked `Modelled from the spec:` below.  Everything else is a
  direct translation of the source file.
-/

/-- A tagged validation result: `Success(value)` or `Failure(errorInfo)` (spec §3). -/
inductive Outcome (ε α : Type) where
  | success : α → Outcome ε α
  | failure : ε → Outcome ε α
deriving DecidableEq

/-- The boolean discriminator, modelling the JS `result.success` field. -/
def Outcome.isSuccess {ε α : Type} : Outcome ε α → Bool
  | Outcome.success _ => true
  | Outcome.failure _ => false

/-- The payload, modelling the JS `result.data` field (`undefined` on failure). -/
def Outcome.data {ε α : Type} : Outcome ε α → Option α
  | Outcome.success v => some v
  | Outcome.failure _ => none

/-- Modelled from the spec: a Segment Validator capability (spec §3, §6).  `shape` is
the structural fragment the external template-literal matcher uses for this part
(spec §4.2); `safeParse` is the part's own `validate(raw) -> Outcome` capability.
The input is an `Option` because the source may index out of bounds and pass
`undefined` (`unparsedValues[i]`). -/
structure ZodPart (ε α : Type) where
  shape : List Char → Bool
  safeParse : Option (List Char) → Outcome ε α

/-- One entry of the interleaved template-literal sequence: either a literal string
(the delimiter occurrences) or a segment validator's structural shape. -/
inductive TLPart where
  | literal : List Char → TLPart
  | schema : (List Char → Bool) → TLPart

/-- A concrete per-segment error vocabulary used by the example validators. -/
inductive SegErr where
  | required
  | invalid
  | tooBig
deriving DecidableEq

/-- Modelled from the spec: the composite-level error taxonomy (spec §7).
`custom n` is the single caller-configured refinement error (`checkParams`,
identified here by a numeric configuration id); `structuralMismatch` is the
template-literal matcher's failure. -/
inductive CompositeError where
  | structuralMismatch
  | custom : Nat → CompositeError
deriving DecidableEq

/-- Helper for `insertDelimiterIntoTuple`: the loop `for (i = 1; ...) { push(delim); push(lst[i]) }`. -/
def interleaveTail {T : Type} (delim : T) : List T → List T
  | [] => []
  | x :: xs => delim :: x :: interleaveTail delim xs

/-- Direct translation of `insertDelimiterIntoTuple` (source lines 6-19): push the
first element if any, then push `delim` and the element for every later element. -/
def insertDelimiterIntoTuple {T : Type} (lst : List T) (delim : T) : List T :=
  match lst with
  | [] => []
  | first :: rest => first :: interleaveTail delim rest

/-- Index of the leftmost occurrence of `d` in `s` (as used by the scan of
JavaScript `String.prototype.split`). -/
def findOcc (d : List Char) : List Char → Option Nat
  | [] => if d.isPrefixOf [] then some 0 else none
  | c :: rest =>
    if d.isPrefixOf (c :: rest) then some 0
    else (findOcc d rest).map (fun j => j + 1)

/-- Fuel-driven scan of JavaScript `String.prototype.split` with a non-empty string
separator: repeatedly cut at the leftmost occurrence of the separator.  `fuel`
bounds the recursion; every real call supplies `fuel = s.length`, which always
suffices because each step consumes at least one character. -/
def jsSplitGo (d : List Char) : Nat → List Char → List (List Char)
  | 0, s => [s]
  | fuel + 1, s =>
    match findOcc d s with
    | none => [s]
    | some j =>
      if d.length = 0 then [s]
      else s.take j :: jsSplitGo d fuel (s.drop (j + d.length))

/-- Model of JavaScript `String.prototype.split` with a string separator
(ECMAScript): an empty separator splits the string into its individual
characters; otherwise the string is cut at every leftmost non-overlapping
occurrence of the separator. -/
def jsSplit (s d : List Char) : List (List Char) :=
  if d.isEmpty then s.map (fun c => [c]) else jsSplitGo d s.length s

/-- Direct translation of `splitIntoTemplateLiterals` (source lines 31-33):
`return str.split(delimiter)`. -/
def splitIntoTemplateLiterals (str delimiter : List Char) : List (List Char) :=
  jsSplit str delimiter

/-- Decides whether `d` occurs in `s` starting at index `j`. -/
def occursAt (d s : List Char) (j : Nat) : Bool :=
  d.isPrefixOf (s.drop j)

/-- Decides whether `d` occurs in `p` as a contiguous substring. -/
def occursWithin (d p : List Char) : Bool :=
  (List.range (p.length + 1)).any (fun j => occursAt d p j)

/-- Concatenation of a list of strings. -/
def concatAll : List (List Char) → List Char
  | [] => []
  | x :: xs => x ++ concatAll xs

/-- Joining raw segment texts with the delimiter: interleave with the source's own
`insertDelimiterIntoTuple` and concatenate the resulting template pieces. -/
def joinWithDelim (rs : List (List Char)) (d : List Char) : List Char :=
  concatAll (insertDelimiterIntoTuple rs d)

/-- The start indices of the delimiter occurrences that `joinWithDelim` inserts
between consecutive raw segments. -/
def joinPositions (d : List Char) : List (List Char) → List Nat
  | [] => []
  | [_] => []
  | r :: rs => r.length :: (joinPositions d rs).map (fun p => p + (r.length + d.length))

/-- Helper for `mapSafeParse`, carrying the running JS array index `i`. -/
def mapSafeParseAux {ε α : Type} (unparsedValues : List (List Char)) :
    List (ZodPart ε α) → Nat → List (Outcome ε α)
  | [], _ => []
  | p :: ps, i => p.safeParse unparsedValues[i]? :: mapSafeParseAux unparsedValues ps (i + 1)

/-- Direct translation of `mapSafeParse` (source lines 36-41):
`parts.map((schema, i) => schema.safeParse(unparsedValues[i]))`.  Out-of-range
indexing yields `undefined` in JS, hence the `Option`-valued lookup. -/
def mapSafeParse {ε α : Type} (parts : List (ZodPart ε α)) (unparsedValues : List (List Char)) :
    List (Outcome ε α) :=
  mapSafeParseAux unparsedValues parts 0

/-- Modelled from the spec: the structural matcher built by the external
`z.templateLiteral` capability (spec §4.2), which is not under `src/`.  A string
matches the interleaved sequence when it is a concatenation of pieces: each
`literal` entry must appear as the exact text and each `schema` entry must
contribute a piece accepted by that part's shape. -/
def structuralMatch : List TLPart → List Char → Bool
  | [], s => s.isEmpty
  | TLPart.literal d :: rest, s => d.isPrefixOf s && structuralMatch rest (s.drop d.length)
  | TLPart.schema f :: rest, s =>
    (List.range (s.length + 1)).any (fun i => f (s.take i) && structuralMatch rest (s.drop i))

/-- The `partsWithSeparators` built at construction time (source lines 93-94):
`insertDelimiterIntoTuple(parts, delim)`, with each part contributing its
structural shape and the delimiter a string literal entry. -/
def partsWithSeparators {ε α : Type} (parts : List (ZodPart ε α)) (delim : List Char) : List TLPart :=
  insertDelimiterIntoTuple (parts.map (fun p => TLPart.schema p.shape)) (TLPart.literal delim)

/-- Direct translation of the refinement callback (source lines 96-101):
split the composite value, map `safeParse` over the parts, return `false` when any
outcome failed, otherwise run the caller predicate over the decoded values.  The
TS `as MapOutput<Parts>` cast of `results.map(r => r.data)` is modelled by
defaulting the (never-taken-on-this-path) failure case. -/
def refineCallback {ε α Exn : Type} [Inhabited α] (parts : List (ZodPart ε α)) (delim : List Char)
    (check : List α → Except Exn Bool) (compositeValue : List Char) : Except Exn Bool :=
  let unparsedValues := splitIntoTemplateLiterals compositeValue delim
  let results := mapSafeParse parts unparsedValues
  if ! results.all Outcome.isSuccess then Except.ok false
  else
    let data := results.map (fun r => (Outcome.data r).getD default)
    check data

/-- Modelled from the spec: the ordered tuple of the n decoded segment outputs
that a successful validation carries (spec §6: `safeValidate(input) ->
Outcome<tuple of n outputs>`). -/
def decodedTuple {ε α : Type} [Inhabited α] (parts : List (ZodPart ε α)) (delim input : List Char) :
    List α :=
  (mapSafeParse parts (splitIntoTemplateLiterals input delim)).map
    (fun r => (Outcome.data r).getD default)

/-- The composite validator's `safeValidate` entry point, from `refineTemplateLiteral`
(source lines 80-102).  The wrapping zod capabilities are not under `src/` and are
modelled from the spec: the template-literal matcher rejects with a structural
mismatch before any segment decoding (spec §4.2); `.refine(cb, checkParams)`
turns `cb = false` into the single caller-configured error, lets an exception
from `cb` propagate unmodified, and reports the decoded tuple on success
(spec §4.5, §6, §7).  `checkParamsId` identifies the `checkParams` configuration. -/
def refineTemplateLiteral {ε α Exn : Type} [Inhabited α] (parts : List (ZodPart ε α))
    (delim : List Char) (check : List α → Except Exn Bool) (checkParamsId : Nat)
    (input : List Char) : Except Exn (Outcome CompositeError (List α)) :=
  if structuralMatch (partsWithSeparators parts delim) input then
    match refineCallback parts delim check input with
    | Except.error e => Except.error e
    | Except.ok false => Except.ok (Outcome.failure (CompositeError.custom checkParamsId))
    | Except.ok true => Except.ok (Outcome.success (decodedTuple parts delim input))
  else Except.ok (Outcome.failure CompositeError.structuralMismatch)

/-- Decimal-digit check for the example integer validators. -/
def isDigits (s : List Char) : Bool :=
  ! s.isEmpty && s.all Char.isDigit

/-- Decimal value of a digit string. -/
def digitsToNat (s : List Char) : Nat :=
  s.foldl (fun acc c => 10 * acc + (c.toNat - 48)) 0

/-- Modelled from the spec: `daysInMonth` of the §8 scenario predicate. -/
def daysInMonth (m : Nat) : Nat :=
  if m = 2 then 28 else if m = 4 ∨ m = 6 ∨ m = 9 ∨ m = 11 then 30 else 31

/-- Modelled from the spec: the `Day(int)` segment validator of §8 (integer-like
string decoded to an integer). -/
def dayPart : ZodPart SegErr Nat where
  shape := isDigits
  safeParse := fun v =>
    match v with
    | none => Outcome.failure SegErr.required
    | some s => if isDigits s then Outcome.success (digitsToNat s) else Outcome.failure SegErr.invalid

/-- Modelled from the spec: the `Month(int≤12)` segment validator of §8. -/
def monthPart : ZodPart SegErr Nat where
  shape := isDigits
  safeParse := fun v =>
    match v with
    | none => Outcome.failure SegErr.required
    | some s =>
      if isDigits s then
        if digitsToNat s ≤ 12 then Outcome.success (digitsToNat s)
        else Outcome.failure SegErr.tooBig
      else Outcome.failure SegErr.invalid

/-- Modelled from the spec: a `String` segment validator (§8 scenarios 2-4):
accepts any raw text, fails only on a missing (`undefined`) input. -/
def stringPart : ZodPart SegErr (List Char) where
  shape := fun _ => true
  safeParse := fun v =>
    match v with
    | none => Outcome.failure SegErr.required
    | some s => Outcome.success s

/-- A segment validator that structurally accepts anything but always fails its own
validation with the error `SegErr.invalid`. -/
def failPartA : ZodPart SegErr Nat where
  shape := fun _ => true
  safeParse := fun _ => Outcome.failure SegErr.invalid

/-- Like `failPartA` but failing with the different error `SegErr.tooBig`. -/
def failPartB : ZodPart SegErr Nat where
  shape := fun _ => true
  safeParse := fun _ => Outcome.failure SegErr.tooBig

/-- Modelled from the spec: the §8 scenario-1 predicate `day ≤ daysInMonth(month)`. -/
def dayMonthCheck : List Nat → Except Nat Bool := fun vs =>
  match vs with
  | [d, m] => Except.ok (decide (d ≤ daysInMonth m))
  | _ => Except.ok false

/-- An always-accepting cross-field predicate over decoded strings. -/
def alwaysTrueS : List (List Char) → Except Nat Bool := fun _ => Except.ok true

/-- An always-accepting cross-field predicate over decoded numbers. -/
def alwaysTrueN : List Nat → Except Nat Bool := fun _ => Except.ok true

/-- A cross-field predicate over decoded numbers that always throws (exception `7`). -/
def throwingCheckN : List Nat → Except Nat Bool := fun _ => Except.error 7

theorem interleaveTail_length {T : Type} (delim : T) (xs : List T) :
    (interleaveTail delim xs).length = 2 * xs.length := by
  induction xs with
  | nil => rfl
  | cons x xs ih => simp [interleaveTail, ih]; omega

theorem insertDelimiterIntoTuple_nil {T : Type} (delim : T) :
    insertDelimiterIntoTuple [] delim = [] := rfl

theorem insertDelimiterIntoTuple_single {T : Type} (x : T) (delim : T) :
    insertDelimiterIntoTuple [x] delim = [x] := rfl

theorem insertDelimiterIntoTuple_cons_cons {T : Type} (x y : T) (rest : List T) (delim : T) :
    insertDelimiterIntoTuple (x :: y :: rest) delim
      = x :: delim :: insertDelimiterIntoTuple (y :: rest) delim := rfl

theorem insertDelimiterIntoTuple_length {T : Type} (lst : List T) (delim : T) :
    (insertDelimiterIntoTuple lst delim).length
      = if lst.length = 0 then 0 else 2 * lst.length - 1 := by
  cases lst with
  | nil => rfl
  | cons x xs => simp [insertDelimiterIntoTuple, interleaveTail_length]; omega

theorem mapSafeParseAux_length {ε α : Type} (vals : List (List Char)) :
    ∀ (ps : List (ZodPart ε α)) (i : Nat), (mapSafeParseAux vals ps i).length = ps.length := by
  intro ps
  induction ps with
  | nil => intro i; rfl
  | cons p ps ih => intro i; simp [mapSafeParseAux, ih]

theorem mapSafeParseAux_get {ε α : Type} (vals : List (List Char)) :
    ∀ (ps : List (ZodPart ε α)) (i k : Nat) (h : k < ps.length)
      (h2 : k < (mapSafeParseAux vals ps i).length),
      (mapSafeParseAux vals ps i).get ⟨k, h2⟩ = (ps.get ⟨k, h⟩).safeParse vals[i + k]? := by
  intro ps
  induction ps with
  | nil => intro i k h h2; exact absurd h (by simp)
  | cons p ps ih =>
    intro i k h h2
    cases k with
    | zero => simp [mapSafeParseAux]
    | succ k =>
      have h' : k < ps.length := by simpa using h
      have h2' : k < (mapSafeParseAux vals ps (i + 1)).length := by
        rw [mapSafeParseAux_length]; exact h'
      have := ih (i + 1) k h' h2'
      simp only [mapSafeParseAux, List.get_cons_succ, this]
      have harith : i + 1 + k = i + (k + 1) := by omega
      rw [harith]

theorem mapSafeParseAux_congr {ε α : Type} (v w : List (List Char)) :
    ∀ (ps : List (ZodPart ε α)) (i : Nat),
      (∀ k, k < ps.length → v[i + k]? = w[i + k]?) →
      mapSafeParseAux v ps i = mapSafeParseAux w ps i := by
  intro ps
  induction ps with
  | nil => intro i _; rfl
  | cons p ps ih =>
    intro i hv
    have h0 := hv 0 (by simp)
    simp only [Nat.add_zero] at h0
    simp only [mapSafeParseAux, h0]
    refine congrArg _ (ih (i + 1) ?_)
    intro k hk
    have := hv (k + 1) (by simpa using Nat.succ_lt_succ hk)
    have harith : i + (k + 1) = i + 1 + k := by omega
    rwa [harith] at this

theorem getElem?_take_of_lt {β : Type} :
    ∀ (l : List β) (n j : Nat), j < n → (l.take n)[j]? = l[j]? := by
  intro l
  induction l with
  | nil => intro n j _; simp
  | cons a l ih =>
    intro n j hj
    cases n with
    | zero => exact absurd hj (by omega)
    | succ n =>
      cases j with
      | zero => simp
      | succ j => simpa using ih n j (by omega)

theorem all_isSuccess_map_success {ε α : Type} (vs : List α) :
    ((vs.map (@Outcome.success ε α)).all Outcome.isSuccess) = true := by
  induction vs with
  | nil => rfl
  | cons v vs ih => simp [Outcome.isSuccess, ih]

theorem map_data_map_success {ε α : Type} [Inhabited α] (vs : List α) :
    ((vs.map (@Outcome.success ε α)).map (fun r => (Outcome.data r).getD default)) = vs := by
  induction vs with
  | nil => rfl
  | cons v vs ih => simpa [Outcome.data] using ih

theorem refineCallback_eq_false {ε α Exn : Type} [Inhabited α] (parts : List (ZodPart ε α))
    (delim : List Char) (check : List α → Except Exn Bool) (input : List Char)
    (hfail : (mapSafeParse parts (splitIntoTemplateLiterals input delim)).all Outcome.isSuccess
      = false) :
    refineCallback parts delim check input = Except.ok false := by
  simp [refineCallback, hfail]

theorem refineCallback_eq_check {ε α Exn : Type} [Inhabited α] (parts : List (ZodPart ε α))
    (delim : List Char) (check : List α → Except Exn Bool) (input : List Char)
    (hok : (mapSafeParse parts (splitIntoTemplateLiterals input delim)).all Outcome.isSuccess
      = true) :
    refineCallback parts delim check input = check (decodedTuple parts delim input) := by
  simp [refineCallback, hok, decodedTuple]

theorem isPrefixOf_length_le {d : List Char} :
    ∀ {s : List Char}, d.isPrefixOf s = true → d.length ≤ s.length := by
  induction d with
  | nil => intro s _; simp
  | cons c d ih =>
    intro s h
    cases s with
    | nil => simp [List.isPrefixOf] at h
    | cons a s =>
      simp only [List.isPrefixOf, Bool.and_eq_true] at h
      have := ih h.2
      simp only [List.length_cons]
      omega

theorem isPrefixOf_append_drop {d : List Char} :
    ∀ {s : List Char}, d.isPrefixOf s = true → d ++ s.drop d.length = s := by
  induction d with
  | nil => intro s _; simp
  | cons c d ih =>
    intro s h
    cases s with
    | nil => simp [List.isPrefixOf] at h
    | cons a s =>
      simp only [List.isPrefixOf, Bool.and_eq_true] at h
      have hca : c = a := eq_of_beq h.1
      simp only [List.length_cons, List.cons_append, List.drop_succ_cons, hca]
      exact congrArg _ (ih h.2)

theorem isPrefixOf_refl_append (d t : List Char) : d.isPrefixOf (d ++ t) = true := by
  induction d with
  | nil => simp [List.isPrefixOf]
  | cons c d ih => simp [List.isPrefixOf, ih]

theorem isPrefixOf_of_take {d : List Char} :
    ∀ {l : List Char} {n : Nat}, d.isPrefixOf (l.take n) = true → d.isPrefixOf l = true := by
  induction d with
  | nil => intro l n _; simp [List.isPrefixOf]
  | cons c d ih =>
    intro l n h
    cases n with
    | zero => simp [List.isPrefixOf] at h
    | succ n =>
      cases l with
      | nil => simp [List.isPrefixOf] at h
      | cons a l =>
        simp only [List.take_succ_cons, List.isPrefixOf, Bool.and_eq_true] at h ⊢
        exact ⟨h.1, ih h.2⟩

theorem findOcc_le {d : List Char} :
    ∀ {s : List Char} {j : Nat}, findOcc d s = some j → j + d.length ≤ s.length := by
  intro s
  induction s with
  | nil =>
    intro j h
    simp only [findOcc] at h
    split at h
    · next hp =>
      cases h
      simpa using isPrefixOf_length_le hp
    · cases h
  | cons c rest ih =>
    intro j h
    simp only [findOcc] at h
    split at h
    · next hp =>
      cases h
      simpa using isPrefixOf_length_le hp
    · next =>
      rw [Option.map_eq_some'] at h
      obtain ⟨j', hj', rfl⟩ := h
      have := ih hj'
      simp only [List.length_cons]
      omega

theorem findOcc_occursAt {d : List Char} :
    ∀ {s : List Char} {j : Nat}, findOcc d s = some j → occursAt d s j = true := by
  intro s
  induction s with
  | nil =>
    intro j h
    simp only [findOcc] at h
    split at h
    · next hp => cases h; simpa [occursAt] using hp
    · cases h
  | cons c rest ih =>
    intro j h
    simp only [findOcc] at h
    split at h
    · next hp => cases h; simpa [occursAt] using hp
    · next =>
      rw [Option.map_eq_some'] at h
      obtain ⟨j', hj', rfl⟩ := h
      simpa [occursAt] using ih hj'

theorem findOcc_min {d : List Char} :
    ∀ {s : List Char} {j : Nat}, findOcc d s = some j →
      ∀ i, i < j → occursAt d s i = false := by
  intro s
  induction s with
  | nil =>
    intro j h i hi
    simp only [findOcc] at h
    split at h
    · cases h; omega
    · cases h
  | cons c rest ih =>
    intro j h i hi
    simp only [findOcc] at h
    split at h
    · cases h; omega
    · next hp =>
      rw [Option.map_eq_some'] at h
      obtain ⟨j', hj', rfl⟩ := h
      cases i with
      | zero => simpa [occursAt] using Bool.of_not_eq_true hp
      | succ i => simpa [occursAt] using ih hj' i (by omega)

theorem findOcc_none {d : List Char} :
    ∀ {s : List Char}, findOcc d s = none → ∀ i, occursAt d s i = false := by
  intro s
  induction s with
  | nil =>
    intro h i
    simp only [findOcc] at h
    split at h
    · cases h
    · next hp =>
      simp only [occursAt, List.drop_nil]
      exact Bool.of_not_eq_true hp
  | cons c rest ih =>
    intro h i
    simp only [findOcc] at h
    split at h
    · cases h
    · next hp =>
      cases i with
      | zero => simpa [occursAt] using Bool.of_not_eq_true hp
      | succ i =>
        rw [Option.map_eq_none'] at h
        simpa [occursAt] using ih h i

theorem findOcc_eq_some_of {d s : List Char} {j : Nat} (h1 : occursAt d s j = true)
    (h2 : ∀ i, i < j → occursAt d s i = false) : findOcc d s = some j := by
  cases h : findOcc d s with
  | none =>
    have := findOcc_none h j
    rw [h1] at this
    cases this
  | some j' =>
    have hp := findOcc_occursAt h
    rcases Nat.lt_trichotomy j j' with hlt | heq | hgt
    · have := findOcc_min h j hlt
      rw [h1] at this
      cases this
    · rw [heq]
    · have := h2 j' hgt
      rw [hp] at this
      cases this

theorem jsSplitGo_fuel (d : List Char) :
    ∀ (fuel : Nat) (s : List Char), s.length ≤ fuel →
      jsSplitGo d fuel s = jsSplitGo d s.length s := by
  intro fuel
  induction fuel using Nat.strong_induction_on with
  | _ fuel ih =>
    intro s hs
    match fuel with
    | 0 =>
      have : s = [] := List.length_eq_zero.mp (Nat.le_zero.mp hs)
      subst this
      rfl
    | fuel + 1 =>
      cases hlen : s.length with
      | zero =>
        have : s = [] := List.length_eq_zero.mp hlen
        subst this
        cases d with
        | nil => rfl
        | cons c d => simp [jsSplitGo, findOcc, List.isPrefixOf]
      | succ n =>
        cases h : findOcc d s with
        | none => simp [jsSplitGo, h]
        | some j =>
          by_cases hd : d.length = 0
          · simp [jsSplitGo, h, hd]
          · have hle := findOcc_le h
            have hdrop : (s.drop (j + d.length)).length ≤ n := by
              simp only [List.length_drop]
              omega
            simp only [jsSplitGo, h]
            rw [if_neg hd, if_neg hd]
            have e1 := ih fuel (by omega) (s.drop (j + d.length)) (by omega)
            have e2 := ih n (by omega) (s.drop (j + d.length)) hdrop
            rw [e1, e2]

theorem jsSplit_eq_go {s d : List Char} (hd : d ≠ []) :
    jsSplit s d = jsSplitGo d s.length s := by
  have : d.isEmpty = false := List.isEmpty_eq_false.mpr hd
  simp [jsSplit, this]

theorem jsSplit_of_none {s d : List Char} (hd : d ≠ []) (h : findOcc d s = none) :
    jsSplit s d = [s] := by
  rw [jsSplit_eq_go hd]
  cases hlen : s.length with
  | zero => have : s = [] := List.length_eq_zero.mp hlen; subst this; rfl
  | succ n => simp [jsSplitGo, h]

theorem jsSplit_of_some {s d : List Char} {j : Nat} (hd : d ≠ []) (h : findOcc d s = some j) :
    jsSplit s d = s.take j :: jsSplit (s.drop (j + d.length)) d := by
  have hdl : d.length ≠ 0 := by
    cases d with
    | nil => exact absurd rfl hd
    | cons c t => simp
  have hle := findOcc_le h
  have hpos : 1 ≤ s.length := by omega
  rw [jsSplit_eq_go hd, jsSplit_eq_go hd]
  obtain ⟨n, hn⟩ : ∃ n, s.length = n + 1 := ⟨s.length - 1, by omega⟩
  rw [hn]
  simp only [jsSplitGo, h]
  rw [if_neg hdl]
  have hdrop : (s.drop (j + d.length)).length ≤ n := by
    simp only [List.length_drop]
    omega
  rw [jsSplitGo_fuel d n _ hdrop]

theorem jsSplit_ne_nil {s d : List Char} (hd : d ≠ []) : jsSplit s d ≠ [] := by
  cases h : findOcc d s with
  | none => rw [jsSplit_of_none hd h]; simp
  | some j => rw [jsSplit_of_some hd h]; simp

theorem findOcc_nil {d : List Char} (hd : d ≠ []) : findOcc d [] = none := by
  cases d with
  | nil => exact absurd rfl hd
  | cons c t => simp [findOcc, List.isPrefixOf]

theorem joinWithDelim_single (r d : List Char) : joinWithDelim [r] d = r := by
  simp [joinWithDelim, insertDelimiterIntoTuple, interleaveTail, concatAll]

theorem joinWithDelim_cons_ne (p : List Char) {rest : List (List Char)} (d : List Char)
    (h : rest ≠ []) : joinWithDelim (p :: rest) d = p ++ (d ++ joinWithDelim rest d) := by
  cases rest with
  | nil => exact absurd rfl h
  | cons y ys => rfl

theorem joinWithDelim_jsSplit {d : List Char} (hd : d ≠ []) :
    ∀ (n : Nat) (s : List Char), s.length ≤ n → joinWithDelim (jsSplit s d) d = s := by
  intro n
  induction n with
  | zero =>
    intro s hs
    have : s = [] := List.length_eq_zero.mp (Nat.le_zero.mp hs)
    subst this
    rw [jsSplit_of_none hd (findOcc_nil hd), joinWithDelim_single]
  | succ n ih =>
    intro s hs
    cases h : findOcc d s with
    | none => rw [jsSplit_of_none hd h, joinWithDelim_single]
    | some j =>
      have hdl : d.length ≠ 0 := by
        cases d with
        | nil => exact absurd rfl hd
        | cons c t => simp
      have hle := findOcc_le h
      have hdrop : (s.drop (j + d.length)).length ≤ n := by
        simp only [List.length_drop]
        omega
      rw [jsSplit_of_some hd h,
        joinWithDelim_cons_ne _ _ (jsSplit_ne_nil hd), ih _ hdrop]
      have hpre : d.isPrefixOf (s.drop j) = true := by
        simpa [occursAt] using findOcc_occursAt h
      have h2 : d ++ (s.drop j).drop d.length = s.drop j := isPrefixOf_append_drop hpre
      rw [List.drop_drop] at h2
      rw [h2, List.take_append_drop]

theorem occursWithin_eq_false_of {d p : List Char} (h : ∀ j, occursAt d p j = false) :
    occursWithin d p = false := by
  rw [occursWithin, List.any_eq_false]
  intro j _
  simp [h j]

theorem jsSplit_pieces {d : List Char} (hd : d ≠ []) :
    ∀ (n : Nat) (s : List Char), s.length ≤ n →
      ∀ piece ∈ jsSplit s d, occursWithin d piece = false := by
  intro n
  induction n with
  | zero =>
    intro s hs piece hpiece
    have : s = [] := List.length_eq_zero.mp (Nat.le_zero.mp hs)
    subst this
    rw [jsSplit_of_none hd (findOcc_nil hd)] at hpiece
    have : piece = [] := by simpa using hpiece
    subst this
    apply occursWithin_eq_false_of
    intro i
    rw [occursAt, List.drop_nil]
    cases d with
    | nil => exact absurd rfl hd
    | cons c t => simp [List.isPrefixOf]
  | succ n ih =>
    intro s hs piece hpiece
    cases h : findOcc d s with
    | none =>
      rw [jsSplit_of_none hd h] at hpiece
      have : piece = s := by simpa using hpiece
      subst this
      apply occursWithin_eq_false_of
      intro i
      exact findOcc_none h i
    | some j =>
      have hdl : d.length ≠ 0 := by
        cases d with
        | nil => exact absurd rfl hd
        | cons c t => simp
      have hle := findOcc_le h
      have hdrop : (s.drop (j + d.length)).length ≤ n := by
        simp only [List.length_drop]
        omega
      rw [jsSplit_of_some hd h] at hpiece
      rcases List.mem_cons.mp hpiece with rfl | hmem
      · apply occursWithin_eq_false_of
        intro i
        rw [occursAt]
        cases hx : d.isPrefixOf ((s.take j).drop i) with
        | false => rfl
        | true =>
          exfalso
          rw [List.drop_take] at hx
          rcases Nat.lt_or_ge i j with hij | hij
          · have hpre := isPrefixOf_of_take hx
            have := findOcc_min h i hij
            rw [occursAt, hpre] at this
            cases this
          · have hji : j - i = 0 := by omega
            rw [hji, List.take_zero] at hx
            cases d with
            | nil => exact hd rfl
            | cons c t => simp [List.isPrefixOf] at hx
      · exact ih _ hdrop piece hmem

theorem joinPositions_cons_cons (d r y : List Char) (ys : List (List Char)) :
    joinPositions d (r :: y :: ys)
      = r.length :: (joinPositions d (y :: ys)).map (fun p => p + (r.length + d.length)) := rfl

theorem length_ne_zero_of_ne_nil {d : List Char} (hd : d ≠ []) : d.length ≠ 0 := by
  cases d with
  | nil => exact absurd rfl hd
  | cons c t => simp

theorem structuralMatch_of_pieces {ε α : Type} :
    ∀ (parts : List (ZodPart ε α)) (raws : List (List Char)) (d : List Char),
      parts.length = raws.length →
      (∀ (i : Nat) (hp : i < parts.length) (hr : i < raws.length),
        (parts.get ⟨i, hp⟩).shape (raws.get ⟨i, hr⟩) = true) →
      structuralMatch (partsWithSeparators parts d) (joinWithDelim raws d) = true := by
  intro parts
  induction parts with
  | nil =>
    intro raws d hlen _
    have : raws = [] := List.length_eq_zero.mp hlen.symm
    subst this
    rfl
  | cons p ps ih =>
    intro raws d hlen hshape
    cases raws with
    | nil => simp at hlen
    | cons r rs =>
      cases ps with
      | nil =>
        have : rs = [] := by
          have : rs.length = 0 := by simpa using hlen.symm
          exact List.length_eq_zero.mp this
        subst this
        rw [joinWithDelim_single]
        show ((List.range (r.length + 1)).any
          (fun i => p.shape (r.take i) && structuralMatch [] (r.drop i))) = true
        apply List.any_eq_true.mpr
        refine ⟨r.length, List.mem_range.mpr (by omega), ?_⟩
        rw [List.take_length r, List.drop_length r]
        have h0 := hshape 0 (by simp) (by simp)
        simp only [List.get] at h0
        simp [structuralMatch, h0]
      | cons q ps2 =>
        cases rs with
        | nil => simp at hlen
        | cons y ys =>
          rw [joinWithDelim_cons_ne r d (by simp)]
          show ((List.range ((r ++ (d ++ joinWithDelim (y :: ys) d)).length + 1)).any
            (fun i => p.shape ((r ++ (d ++ joinWithDelim (y :: ys) d)).take i)
              && structuralMatch (TLPart.literal d :: partsWithSeparators (q :: ps2) d)
                ((r ++ (d ++ joinWithDelim (y :: ys) d)).drop i))) = true
          apply List.any_eq_true.mpr
          refine ⟨r.length, List.mem_range.mpr (by simp [List.length_append]; omega), ?_⟩
          rw [List.take_left r, List.drop_left r]
          have h0 := hshape 0 (by simp) (by simp)
          simp only [List.get] at h0
          rw [h0]
          show (true && (d.isPrefixOf (d ++ joinWithDelim (y :: ys) d)
            && structuralMatch (partsWithSeparators (q :: ps2) d)
              ((d ++ joinWithDelim (y :: ys) d).drop d.length))) = true
          rw [isPrefixOf_refl_append, List.drop_left d]
          have hrec := ih (y :: ys) d (by simpa using hlen) ?_
          · simpa using hrec
          · intro i hp2 hr2
            have := hshape (i + 1) (by simpa using Nat.succ_lt_succ hp2)
              (by simpa using Nat.succ_lt_succ hr2)
            simpa [List.get] using this

theorem jsSplit_joinWithDelim_recover {d : List Char} (hd : d ≠ []) :
    ∀ (raws : List (List Char)), raws ≠ [] →
      (∀ j, j < (joinWithDelim raws d).length →
        (occursAt d (joinWithDelim raws d) j = true ↔ j ∈ joinPositions d raws)) →
      jsSplit (joinWithDelim raws d) d = raws := by
  intro raws
  induction raws with
  | nil => intro h _; exact absurd rfl h
  | cons r rs ih =>
    intro _ hocc
    cases rs with
    | nil =>
      rw [joinWithDelim_single] at hocc ⊢
      cases h : findOcc d r with
      | none => exact jsSplit_of_none hd h
      | some j =>
        exfalso
        have hp := findOcc_occursAt h
        have hle := findOcc_le h
        have hdl := length_ne_zero_of_ne_nil hd
        have hj : j < r.length := by omega
        have := (hocc j hj).mp hp
        simp [joinPositions] at this
    | cons y ys =>
      have hdl := length_ne_zero_of_ne_nil hd
      have hjoin : joinWithDelim (r :: y :: ys) d
          = r ++ (d ++ joinWithDelim (y :: ys) d) := joinWithDelim_cons_ne r d (by simp)
      rw [hjoin] at hocc ⊢
      have hoccr : occursAt d (r ++ (d ++ joinWithDelim (y :: ys) d)) r.length = true := by
        rw [occursAt, List.drop_left r]
        exact isPrefixOf_refl_append d _
      have hmin : ∀ i, i < r.length →
          occursAt d (r ++ (d ++ joinWithDelim (y :: ys) d)) i = false := by
        intro i hi
        cases hx : occursAt d (r ++ (d ++ joinWithDelim (y :: ys) d)) i with
        | false => rfl
        | true =>
          exfalso
          have hilen : i < (r ++ (d ++ joinWithDelim (y :: ys) d)).length := by
            simp only [List.length_append]
            omega
          have hmem := (hocc i hilen).mp hx
          rw [joinPositions_cons_cons] at hmem
          rcases List.mem_cons.mp hmem with heq | hmem2
          · omega
          · obtain ⟨p2, _, hpe⟩ := List.mem_map.mp hmem2
            omega
      have hf : findOcc d (r ++ (d ++ joinWithDelim (y :: ys) d)) = some r.length :=
        findOcc_eq_some_of hoccr hmin
      rw [jsSplit_of_some hd hf]
      have hdrop : (r ++ (d ++ joinWithDelim (y :: ys) d)).drop (r.length + d.length)
          = joinWithDelim (y :: ys) d := by
        rw [show r ++ (d ++ joinWithDelim (y :: ys) d)
          = (r ++ d) ++ joinWithDelim (y :: ys) d from (List.append_assoc r d _).symm]
        rw [show r.length + d.length = (r ++ d).length from by simp [List.length_append]]
        exact List.drop_left (r ++ d) _
      rw [List.take_left r, hdrop]
      refine congrArg _ (ih (by simp) ?_)
      intro j hj
      have hshift : occursAt d (joinWithDelim (y :: ys) d) j
          = occursAt d (r ++ (d ++ joinWithDelim (y :: ys) d)) (j + (r.length + d.length)) := by
        rw [occursAt, occursAt]
        rw [show j + (r.length + d.length) = (r.length + d.length) + j from by omega]
        rw [← List.drop_drop j (r.length + d.length) _, hdrop]
      have hjlen : j + (r.length + d.length)
          < (r ++ (d ++ joinWithDelim (y :: ys) d)).length := by
        simp only [List.length_append]
        omega
      rw [hshift, hocc _ hjlen, joinPositions_cons_cons]
      simp only [List.mem_cons, List.mem_map]
      constructor
      · rintro (heq | ⟨p2, hpL, hpe⟩)
        · omega
        · have : p2 = j := by omega
          subst this
          exact hpL
      · intro hjL
        exact Or.inr ⟨j, hjL, rfl⟩

theorem mapSafeParse_eq_map_success {ε α : Type} (parts : List (ZodPart ε α))
    (raws : List (List Char)) (vals : List α)
    (hlenr : raws.length = parts.length) (hlenv : vals.length = parts.length)
    (hparse : ∀ (i : Nat) (hp : i < parts.length) (hr : i < raws.length) (hv : i < vals.length),
      (parts.get ⟨i, hp⟩).safeParse (some (raws.get ⟨i, hr⟩))
        = Outcome.success (vals.get ⟨i, hv⟩)) :
    mapSafeParse parts raws = vals.map Outcome.success := by
  apply List.ext_get
  · rw [mapSafeParse, mapSafeParseAux_length, List.length_map]
    omega
  · intro n h1 h2
    have hp : n < parts.length := by
      simp only [mapSafeParse] at h1
      rwa [mapSafeParseAux_length] at h1
    have hv : n < vals.length := by rwa [List.length_map] at h2
    have hr : n < raws.length := by omega
    simp only [mapSafeParse]
    rw [mapSafeParseAux_get raws parts 0 n hp (by simpa only [mapSafeParse] using h1)]
    rw [show (0 : Nat) + n = n from by omega]
    rw [List.getElem?_eq_getElem hr]
    have hg : raws[n] = raws.get ⟨n, hr⟩ := rfl
    rw [hg]
    rw [hparse n hp hr hv]
    simp [List.get_eq_getElem, List.getElem_map]

theorem composite_success_of {ε α Exn : Type} [Inhabited α] (parts : List (ZodPart ε α))
    (delim input : List Char) (check : List α → Except Exn Bool) (cfg : Nat) (vs : List α)
    (hstruct : structuralMatch (partsWithSeparators parts delim) input = true)
    (hres : mapSafeParse parts (splitIntoTemplateLiterals input delim) = vs.map Outcome.success)
    (hcheck : check vs = Except.ok true) :
    refineTemplateLiteral parts delim check cfg input = Except.ok (Outcome.success vs) := by
  have hall : (mapSafeParse parts (splitIntoTemplateLiterals input delim)).all
      Outcome.isSuccess = true := by
    rw [hres]
    exact all_isSuccess_map_success vs
  have hdec : decodedTuple parts delim input = vs := by
    rw [decodedTuple, hres]
    exact map_data_map_success vs
  rw [refineTemplateLiteral, if_pos hstruct,
    refineCallback_eq_check parts delim check input hall, hdec, hcheck]

/-- Claim C1: for every composite validator and every input that passes structural
matching, whose per-segment validations all succeed (with decoded values `vs`, in
order), and that passes the predicate, `safeValidate` returns a Success outcome
whose value is the ordered tuple of the decoded segment outputs. -/
theorem composite_success_returns_decoded_tuple {ε α Exn : Type} [Inhabited α]
    (parts : List (ZodPart ε α)) (delim input : List Char)
    (check : List α → Except Exn Bool) (cfg : Nat) (vs : List α)
    (hstruct : structuralMatch (partsWithSeparators parts delim) input = true)
    (hres : mapSafeParse parts (splitIntoTemplateLiterals input delim) = vs.map Outcome.success)
    (hcheck : check vs = Except.ok true) :
    refineTemplateLiteral parts delim check cfg input = Except.ok (Outcome.success vs) :=
  composite_success_of parts delim input check cfg vs hstruct hres hcheck

/-- Witness for C1: the spec §8 day/month example, input "7,11", yields Success (7, 11). -/
theorem composite_success_returns_decoded_tuple_witness :
    refineTemplateLiteral [dayPart, monthPart] [','] dayMonthCheck 0 ['7', ',', '1', '1']
      = Except.ok (Outcome.success [7, 11]) :=
  composite_success_returns_decoded_tuple [dayPart, monthPart] [','] ['7', ',', '1', '1']
    dayMonthCheck 0 [7, 11] rfl rfl rfl

/-- Counterexample for C2: two composite validators whose single segment fails with
two different per-segment errors (`failPartA` fails with `SegErr.invalid`,
`failPartB` with `SegErr.tooBig`) produce the identical composite failure — the
single configured custom error — so the composite failure cannot be carrying the
failing segment's own error or its position. -/
theorem segment_failure_error_not_aggregated_cex :
    refineTemplateLiteral [failPartA] ['|'] alwaysTrueN 5 ['a']
        = Except.ok (Outcome.failure (CompositeError.custom 5))
      ∧ refineTemplateLiteral [failPartB] ['|'] alwaysTrueN 5 ['a']
        = Except.ok (Outcome.failure (CompositeError.custom 5)) :=
  ⟨rfl, rfl⟩

/-- Claim C2 (amended): when one or more per-segment outcomes are Failure (on an
input that passed structural matching), the composite validation does fail, but the
failure carries only the single caller-configured refinement error — the same error
a predicate rejection produces — and the per-segment errors and positions are
discarded, not aggregated. -/
theorem segment_failure_yields_single_custom_error {ε α Exn : Type} [Inhabited α]
    (parts : List (ZodPart ε α)) (delim input : List Char)
    (check : List α → Except Exn Bool) (cfg : Nat)
    (hstruct : structuralMatch (partsWithSeparators parts delim) input = true)
    (hfail : (mapSafeParse parts (splitIntoTemplateLiterals input delim)).all
      Outcome.isSuccess = false) :
    refineTemplateLiteral parts delim check cfg input
      = Except.ok (Outcome.failure (CompositeError.custom cfg)) := by
  rw [refineTemplateLiteral, if_pos hstruct,
    refineCallback_eq_false parts delim check input hfail]

/-- Witness for the amended C2. -/
theorem segment_failure_yields_single_custom_error_witness :
    refineTemplateLiteral [failPartA] ['|'] alwaysTrueN 3 ['b']
      = Except.ok (Outcome.failure (CompositeError.custom 3)) :=
  segment_failure_yields_single_custom_error [failPartA] ['|'] ['b'] alwaysTrueN 3 rfl rfl

/-- Counterexample for C3: with segment validators [String, String] and delimiter
"|", validating "a|b|c" yields a Success outcome with decoded values ("a", "b") —
not a SegmentValidationFailure/undefined-segment condition. -/
theorem extra_pieces_success_cex :
    refineTemplateLiteral [stringPart, stringPart] ['|'] alwaysTrueS 5 ['a', '|', 'b', '|', 'c']
      = Except.ok (Outcome.success [['a'], ['b']]) := rfl

/-- Claim C3 (amended): splitting "a|b|c" with delimiter "|" yields 3 pieces against
2 validators, but the runner maps over the validator list only, so split pieces
beyond the validator count are silently ignored (in general
`mapSafeParse parts vals = mapSafeParse parts (vals.take parts.length)`), and the
validation returns Success ("a", "b"), not a failure. -/
theorem runner_ignores_extra_pieces :
    (∀ (ε α : Type) (parts : List (ZodPart ε α)) (vals : List (List Char)),
      mapSafeParse parts vals = mapSafeParse parts (vals.take parts.length))
    ∧ refineTemplateLiteral [stringPart, stringPart] ['|'] alwaysTrueS 0 ['a', '|', 'b', '|', 'c']
      = Except.ok (Outcome.success [['a'], ['b']]) := by
  constructor
  · intro ε α parts vals
    simp only [mapSafeParse]
    apply mapSafeParseAux_congr
    intro k hk
    rw [Nat.zero_add, getElem?_take_of_lt vals parts.length k hk]
  · rfl

/-- Claim C4: `safeValidate` propagates an exception (instead of returning a
Failure outcome) for exactly the inputs where the pipeline reaches the caller
predicate and the predicate throws, and the exception comes out unmodified; for
every other failure kind (structural mismatch, segment failure, predicate
rejection) it returns an ok Outcome, never throwing. -/
theorem validation_throws_iff_predicate_throws {ε α Exn : Type} [Inhabited α]
    (parts : List (ZodPart ε α)) (delim input : List Char)
    (check : List α → Except Exn Bool) (cfg : Nat) (e : Exn) :
    refineTemplateLiteral parts delim check cfg input = Except.error e ↔
      (structuralMatch (partsWithSeparators parts delim) input = true
        ∧ (mapSafeParse parts (splitIntoTemplateLiterals input delim)).all
            Outcome.isSuccess = true
        ∧ check (decodedTuple parts delim input) = Except.error e) := by
  cases hstruct : structuralMatch (partsWithSeparators parts delim) input with
  | false =>
    rw [refineTemplateLiteral, if_neg (by simp [hstruct])]
    simp
  | true =>
    cases hall : (mapSafeParse parts (splitIntoTemplateLiterals input delim)).all
        Outcome.isSuccess with
    | false =>
      rw [refineTemplateLiteral, if_pos hstruct,
        refineCallback_eq_false parts delim check input hall]
      simp
    | true =>
      rw [refineTemplateLiteral, if_pos hstruct,
        refineCallback_eq_check parts delim check input hall]
      cases hc : check (decodedTuple parts delim input) with
      | error e2 => simp [hc]
      | ok b => cases b <;> simp [hc]

/-- Claim C5: whenever structural matching fails or any per-segment outcome is a
Failure, the validation result is the same for every predicate — extensionally,
the cross-field predicate is never invoked during that validation call. -/
theorem predicate_not_invoked_on_failure {ε α Exn : Type} [Inhabited α]
    (parts : List (ZodPart ε α)) (delim input : List Char) (cfg : Nat)
    (h : structuralMatch (partsWithSeparators parts delim) input = false
      ∨ (mapSafeParse parts (splitIntoTemplateLiterals input delim)).all
          Outcome.isSuccess = false) :
    ∀ (check1 check2 : List α → Except Exn Bool),
      refineTemplateLiteral parts delim check1 cfg input
        = refineTemplateLiteral parts delim check2 cfg input := by
  intro check1 check2
  cases hstruct : structuralMatch (partsWithSeparators parts delim) input with
  | false =>
    rw [refineTemplateLiteral, refineTemplateLiteral,
      if_neg (by simp [hstruct]), if_neg (by simp [hstruct])]
  | true =>
    have hfail : (mapSafeParse parts (splitIntoTemplateLiterals input delim)).all
        Outcome.isSuccess = false := by
      rcases h with h1 | h2
      · rw [hstruct] at h1
        cases h1
      · exact h2
    rw [refineTemplateLiteral, refineTemplateLiteral, if_pos hstruct, if_pos hstruct,
      refineCallback_eq_false parts delim check1 input hfail,
      refineCallback_eq_false parts delim check2 input hfail]

/-- Witness for C5: a failing segment, one accepting and one throwing predicate,
identical results. -/
theorem predicate_not_invoked_on_failure_witness :
    refineTemplateLiteral [failPartA] ['|'] alwaysTrueN 2 ['c']
      = refineTemplateLiteral [failPartA] ['|'] throwingCheckN 2 ['c'] :=
  predicate_not_invoked_on_failure [failPartA] ['|'] ['c'] 2 (Or.inr rfl)
    alwaysTrueN throwingCheckN

/-- Claim C6: with an empty delimiter the split yields one single-character segment
per character of the input (in particular "ab" splits to ["a", "b"], not ["ab"]);
with a non-empty delimiter the split is a left-to-right non-overlapping scan on
exact literal occurrences: joining the segments back with the delimiter restores
the input verbatim (so the segments are exactly the substrings between consecutive
occurrences and the string boundaries, including empty segments at adjacent
occurrences or boundaries), and the delimiter never occurs inside a returned
segment. -/
theorem split_semantics_spec :
    (∀ s : List Char, (jsSplit s []).length = s.length
      ∧ ∀ (i : Nat) (h1 : i < (jsSplit s []).length) (h2 : i < s.length),
          (jsSplit s []).get ⟨i, h1⟩ = [s.get ⟨i, h2⟩])
    ∧ (∀ s d : List Char, d ≠ [] →
        joinWithDelim (jsSplit s d) d = s
        ∧ ∀ piece ∈ jsSplit s d, occursWithin d piece = false)
    ∧ jsSplit ['a', 'b'] [] = [['a'], ['b']] := by
  refine ⟨?_, ?_, rfl⟩
  · intro s
    have he : jsSplit s [] = s.map (fun c => [c]) := rfl
    constructor
    · rw [he]
      exact List.length_map s _
    · intro i h1 h2
      simp only [he, List.get_eq_getElem, List.getElem_map]
  · intro s d hd
    exact ⟨joinWithDelim_jsSplit hd s.length s (by omega),
      fun piece hp => jsSplit_pieces hd s.length s (by omega) piece hp⟩

/-- Witness for C6: splitting "a||b" on "|" (adjacent occurrences, hence an empty
middle segment) and joining back restores the input. -/
theorem split_semantics_spec_witness :
    joinWithDelim (jsSplit ['a', '|', '|', 'b'] ['|']) ['|'] = ['a', '|', '|', 'b'] :=
  (split_semantics_spec.2.1 ['a', '|', '|', 'b'] ['|'] (by decide)).1

/-- Counterexample for C7: the raw texts "a" and "b" individually match the String
validators and neither contains the delimiter "aa" as a substring, yet joining
them gives "aaab", whose leftmost-occurrence split is ["", "ab"], not ["a", "b"];
validating the joined string succeeds with decoded values ("", "ab"), not the
originals — the delimiter overlaps a piece boundary. -/
theorem roundTrip_fails_on_overlapping_delimiter_cex :
    occursWithin ['a', 'a'] ['a'] = false
    ∧ occursWithin ['a', 'a'] ['b'] = false
    ∧ stringPart.safeParse (some ['a']) = Outcome.success ['a']
    ∧ stringPart.safeParse (some ['b']) = Outcome.success ['b']
    ∧ joinWithDelim [['a'], ['b']] ['a', 'a'] = ['a', 'a', 'a', 'b']
    ∧ jsSplit ['a', 'a', 'a', 'b'] ['a', 'a'] = [[], ['a', 'b']]
    ∧ refineTemplateLiteral [stringPart, stringPart] ['a', 'a'] alwaysTrueS 0
        ['a', 'a', 'a', 'b'] = Except.ok (Outcome.success [[], ['a', 'b']])
    ∧ ([[], ['a', 'b']] : List (List Char)) ≠ [['a'], ['b']] :=
  ⟨rfl, rfl, rfl, rfl, rfl, rfl, rfl, by decide⟩

/-- Claim C7 (amended): for any non-empty list of raw segment texts that
individually match their validators (both shape and decoding), joined with a
non-empty delimiter whose only occurrences in the joined string are the n-1
inserted join positions, splitting the joined string recovers exactly the original
raw texts, the decoded tuple computed from the joined string is exactly the
original decoded values, and — when the predicate accepts those values —
validating the joined string returns Success with exactly those values. -/
theorem roundTrip_amended {ε α Exn : Type} [Inhabited α]
    (parts : List (ZodPart ε α)) (raws : List (List Char)) (vals : List α) (d : List Char)
    (check : List α → Except Exn Bool) (cfg : Nat)
    (hd : d ≠ []) (hne : raws ≠ [])
    (hlenr : raws.length = parts.length) (hlenv : vals.length = parts.length)
    (hshape : ∀ (i : Nat) (hp : i < parts.length) (hr : i < raws.length),
      (parts.get ⟨i, hp⟩).shape (raws.get ⟨i, hr⟩) = true)
    (hparse : ∀ (i : Nat) (hp : i < parts.length) (hr : i < raws.length) (hv : i < vals.length),
      (parts.get ⟨i, hp⟩).safeParse (some (raws.get ⟨i, hr⟩))
        = Outcome.success (vals.get ⟨i, hv⟩))
    (hocc : ∀ j, j < (joinWithDelim raws d).length →
      (occursAt d (joinWithDelim raws d) j = true ↔ j ∈ joinPositions d raws)) :
    jsSplit (joinWithDelim raws d) d = raws
    ∧ decodedTuple parts d (joinWithDelim raws d) = vals
    ∧ (check vals = Except.ok true →
        refineTemplateLiteral parts d check cfg (joinWithDelim raws d)
          = Except.ok (Outcome.success vals)) := by
  have hrec : jsSplit (joinWithDelim raws d) d = raws :=
    jsSplit_joinWithDelim_recover hd raws hne hocc
  have hres : mapSafeParse parts (splitIntoTemplateLiterals (joinWithDelim raws d) d)
      = vals.map Outcome.success := by
    rw [splitIntoTemplateLiterals, hrec]
    exact mapSafeParse_eq_map_success parts raws vals hlenr hlenv hparse
  have hdec : decodedTuple parts d (joinWithDelim raws d) = vals := by
    rw [decodedTuple, hres]
    exact map_data_map_success vals
  refine ⟨hrec, hdec, fun hcheck => ?_⟩
  exact composite_success_of parts d (joinWithDelim raws d) check cfg vals
    (structuralMatch_of_pieces parts raws d hlenr.symm hshape) hres hcheck

/-- Witness for the amended C7: raw texts "a", "b", delimiter "|". -/
theorem roundTrip_amended_witness :
    jsSplit (joinWithDelim [['a'], ['b']] ['|']) ['|'] = [['a'], ['b']] :=
  (roundTrip_amended [stringPart, stringPart] [['a'], ['b']] [['a'], ['b']] ['|']
    alwaysTrueS 0 (by decide) (by decide) (by decide) (by decide)
    (by decide) (by decide) (by decide)).1

/-- Claim C8: the per-segment runner produces exactly one outcome per validator —
the outcome list always has the validator list's length, regardless of the split
result's length — and the i-th outcome is exactly validator i applied to its own
positional input, independent of every other pair, so every positional pair is
evaluated even when an earlier pair failed. -/
theorem mapSafeParse_positional_spec {ε α : Type} (parts : List (ZodPart ε α))
    (vals : List (List Char)) :
    (mapSafeParse parts vals).length = parts.length
    ∧ ∀ (i : Nat) (hp : i < parts.length) (h2 : i < (mapSafeParse parts vals).length),
        (mapSafeParse parts vals).get ⟨i, h2⟩ = (parts.get ⟨i, hp⟩).safeParse vals[i]? := by
  constructor
  · simp only [mapSafeParse]
    exact mapSafeParseAux_length vals parts 0
  · intro i hp h2
    simp only [mapSafeParse]
    rw [mapSafeParseAux_get vals parts 0 i hp h2]
    rw [Nat.zero_add]

/-- Witness for C8: position 1 of the day/month runner is exactly the month
validator applied to the second split segment. -/
theorem mapSafeParse_positional_spec_witness :
    (mapSafeParse [dayPart, monthPart] [['7'], ['1', '1']]).get ⟨1, by decide⟩
      = monthPart.safeParse (some ['1', '1']) :=
  (mapSafeParse_positional_spec [dayPart, monthPart] [['7'], ['1', '1']]).2 1
    (by decide) (by decide)

theorem insert_getElem_even {T : Type} :
    ∀ (lst : List T) (delim : T) (i : Nat),
      (insertDelimiterIntoTuple lst delim)[2 * i]? = lst[i]? := by
  intro lst
  induction lst with
  | nil => intro delim i; rfl
  | cons x xs ih =>
    intro delim i
    cases xs with
    | nil =>
      cases i with
      | zero => rfl
      | succ i =>
        rw [show 2 * (i + 1) = 2 * i + 1 + 1 from by omega]
        simp [insertDelimiterIntoTuple, interleaveTail]
    | cons y ys =>
      cases i with
      | zero => rfl
      | succ i =>
        rw [insertDelimiterIntoTuple_cons_cons,
          show 2 * (i + 1) = 2 * i + 1 + 1 from by omega,
          List.getElem?_cons_succ, List.getElem?_cons_succ,
          List.getElem?_cons_succ, ih delim i]

theorem insert_getElem_odd {T : Type} :
    ∀ (lst : List T) (delim : T) (i : Nat), i + 1 < lst.length →
      (insertDelimiterIntoTuple lst delim)[2 * i + 1]? = some delim := by
  intro lst
  induction lst with
  | nil => intro delim i hi; simp at hi
  | cons x xs ih =>
    intro delim i hi
    cases xs with
    | nil => simp at hi
    | cons y ys =>
      cases i with
      | zero => rfl
      | succ i =>
        rw [insertDelimiterIntoTuple_cons_cons,
          show 2 * (i + 1) + 1 = 2 * i + 1 + 1 + 1 from by omega,
          List.getElem?_cons_succ, List.getElem?_cons_succ]
        exact ih delim i (by simpa using hi)

/-- Claim C9: the delimiter inserter always succeeds: for n input elements the
result has 2n-1 elements when n>0 (0 when n=0; for n=1 a single element with no
separator), the original elements appear — in order and identity — at the even
positions, and the separator sits at every odd position, i.e. between every pair
of adjacent original elements. -/
theorem insertDelimiterIntoTuple_spec {T : Type} (lst : List T) (delim : T) :
    ((insertDelimiterIntoTuple lst delim).length
      = if lst.length = 0 then 0 else 2 * lst.length - 1)
    ∧ (∀ i : Nat, (insertDelimiterIntoTuple lst delim)[2 * i]? = lst[i]?)
    ∧ (∀ i : Nat, i + 1 < lst.length →
        (insertDelimiterIntoTuple lst delim)[2 * i + 1]? = some delim) := by
  refine ⟨insertDelimiterIntoTuple_length lst delim, ?_, ?_⟩
  · intro i
    exact insert_getElem_even lst delim i
  · intro i hi
    exact insert_getElem_odd lst delim i hi

/-- Witness for C9: the separator sits between the second and third element. -/
theorem insertDelimiterIntoTuple_spec_witness :
    (insertDelimiterIntoTuple [10, 20, 30] 7)[3]? = some 7 :=
  (insertDelimiterIntoTuple_spec [10, 20, 30] 7).2.2 1 (by decide)

/-- Claim C10: when the split result is shorter than the validator list, the runner
does not skip the trailing validators: the outcome list still has one entry per
validator, and every validator at a position at or beyond the split length is
applied to the out-of-bounds lookup result `none` (JS `undefined`), so the outcome
at such positions is exactly that validator's treatment of a missing value. -/
theorem mapSafeParse_missing_input_spec {ε α : Type} (parts : List (ZodPart ε α))
    (vals : List (List Char)) :
    (mapSafeParse parts vals).length = parts.length
    ∧ ∀ (i : Nat) (hp : i < parts.length) (h2 : i < (mapSafeParse parts vals).length),
        vals.length ≤ i →
        (mapSafeParse parts vals).get ⟨i, h2⟩ = (parts.get ⟨i, hp⟩).safeParse none := by
  constructor
  · simp only [mapSafeParse]
    exact mapSafeParseAux_length vals parts 0
  · intro i hp h2 hlen
    simp only [mapSafeParse]
    rw [mapSafeParseAux_get vals parts 0 i hp h2]
    rw [Nat.zero_add, List.getElem?_eq_none hlen]

/-- Witness for C10: one String validator, an empty split result: the validator is
applied to the missing value and reports its own missing-input failure. -/
theorem mapSafeParse_missing_input_spec_witness :
    (mapSafeParse [stringPart] ([] : List (List Char))).get ⟨0, by decide⟩
      = stringPart.safeParse none :=
  (mapSafeParse_missing_input_spec [stringPart] []).2 0 (by decide) (by decide) (by decide)
